import Mathlib

/-!
A shallow embedding of `src/commandModel.js` (the command classifier and the
option parser of the learnGitBranching command model).  JavaScript strings are
modelled as `List Char`; the regular expressions of the source are modelled by
executable functions that mirror the regex semantics; the exceptions used for
control flow (`CommandResult`, `CommandProcessError`, plain `Error`) are
modelled as the constructors of an explicit outcome type.
-/

namespace CommandModel

/-- Strings are modelled as lists of characters. -/
abbrev Str := List Char

/-- Characters matched by the JavaScript regex class \s
(whitespace per ECMAScript: ASCII whitespace, NBSP, and the
Unicode space separators, line/paragraph separators and BOM). -/
def isJsSpace (c : Char) : Bool :=
  c == ' ' || c == '\t' || c == '\n' || c == '\u000b' || c == '\u000c' || c == '\r' ||
  c == '\u00A0' || c == '\u1680' || (('\u2000' ≤ c) && (c ≤ '\u200A')) ||
  c == '\u2028' || c == '\u2029' || c == '\u202F' || c == '\u205F' ||
  c == '\u3000' || c == '\uFEFF'

/-- Line terminators, the characters NOT matched by the JavaScript regex `.`. -/
def isLineTerm (c : Char) : Bool :=
  c == '\n' || c == '\r' || c == '\u2028' || c == '\u2029'

/-- The regex fragment `q.*?q` (for a quote character `q`), applied right after an
opening `q`: scan for the closest closing quote, where `.*?` may cross any
characters except line terminators.  Returns the span before the closing quote
and the characters after it, or `none` when no closing quote is reachable. -/
def scanQuoted (q : Char) : Str → Option (Str × Str)
  | [] => none
  | c :: cs =>
    if c == q then some ([], cs)
    else if isLineTerm c then none
    else
      match scanQuoted q cs with
      | some (content, rest) => some (c :: content, rest)
      | none => none

/-- One match of the regex `('.*?'|".*?"|\S+)` starting at the non-space character
`c` with remaining input `cs`: the alternatives are tried in order, so an opening
quote with a reachable closing quote yields the quoted span (quotes included, as
in the source, which strips them afterwards), and otherwise a maximal run of
non-whitespace characters is taken.  Returns the matched token and the rest of
the input. -/
def nextToken (c : Char) (cs : Str) : Str × Str :=
  if c == '\'' then
    match scanQuoted '\'' cs with
    | some (content, rest) => ('\'' :: content ++ ['\''], rest)
    | none => (c :: cs.takeWhile (fun x => !isJsSpace x), cs.dropWhile (fun x => !isJsSpace x))
  else if c == '"' then
    match scanQuoted '"' cs with
    | some (content, rest) => ('"' :: content ++ ['"'], rest)
    | none => (c :: cs.takeWhile (fun x => !isJsSpace x), cs.dropWhile (fun x => !isJsSpace x))
  else (c :: cs.takeWhile (fun x => !isJsSpace x), cs.dropWhile (fun x => !isJsSpace x))

/-- Global scan of `this.rawOptions.match(/('.*?'|".*?"|\S+)/g)`: characters at
which no alternative can match (exactly the whitespace characters) are skipped,
and at every non-whitespace character one token is matched by `nextToken`.
The fuel argument bounds the recursion; every step consumes at least one
character, so fuel equal to the input length (as supplied by `rawTokens`)
is always sufficient. -/
def rawTokensGo : Nat → Str → List Str
  | _, [] => []
  | 0, _ :: _ => []
  | fuel + 1, c :: cs =>
    if isJsSpace c then rawTokensGo fuel cs
    else (nextToken c cs).1 :: rawTokensGo fuel (nextToken c cs).2

/-- The list of raw (still quoted) tokens of the remainder string. -/
def rawTokens (s : Str) : List Str :=
  rawTokensGo s.length s

/-- The per-token cleanup `part.replace(/['"]/g, '')`: every single and double
quote character is removed. -/
def stripQuotes (t : Str) : Str :=
  t.filter (fun c => !(c == '\'' || c == '"'))

/-- The tokenization performed at the start of `explodeAndSet`: match the global
token regex, then strip quote characters from every token. -/
def tokenize (s : Str) : List Str :=
  (rawTokens s).map stripQuotes

/-- The value stored for a flag in the supported-option map: `passthrough`
models the JavaScript literal `false` (supported, not yet encountered), and
`args` models the argument array assigned when the flag is encountered. -/
inductive OptVal
  | passthrough
  | args (xs : List Str)
deriving DecidableEq, Repr, Inhabited

/-- The fixed per-method supported-option table `getMasterOptionMap` of the
source.  `none` models an absent key (undefined when accessed). -/
def getMasterOptionMap (method : Str) : Option (List (Str × OptVal)) :=
  if method = "commit".data then
    some [("--amend".data, .passthrough), ("-a".data, .passthrough), ("-am".data, .passthrough)]
  else if method = "add".data then some []
  else if method = "branch".data then
    some [("-d".data, .passthrough), ("-D".data, .passthrough)]
  else if method = "checkout".data then some [("-b".data, .passthrough)]
  else if method = "reset".data then
    some [("--hard".data, .passthrough), ("--soft".data, .passthrough)]
  else if method = "merge".data then some []
  else if method = "rebase".data then some []
  else if method = "revert".data then some []
  else none

/-- Property read `map[key]` on the supported-option map, `none` when the key is
absent (the source compares against `undefined`; every looked-up token starts
with `-`, so inherited prototype properties can never be hit). -/
def lookupOpt : List (Str × OptVal) → Str → Option OptVal
  | [], _ => none
  | (k, v) :: rest, key => if k = key then some v else lookupOpt rest key

/-- Property write `map[key] = v`: replace the value at an existing key, or
append the key (the source only ever writes keys that passed the lookup). -/
def setOpt : List (Str × OptVal) → Str → OptVal → List (Str × OptVal)
  | [], key, v => [(key, v)]
  | (k, w) :: rest, key, v =>
    if k = key then (k, v) :: rest else (k, w) :: setOpt rest key v

/-- The test `part.slice(0,1) == '-'` of the source: true exactly when the token
starts with the character `-` (the empty token yields false). -/
def startsWithDash : Str → Bool
  | '-' :: _ => true
  | _ => false

/-- The possible outcomes of constructing an `OptionParser`: the plain
`Error('No option map for ...')` for a method that is missing from the master
option table, the `CommandProcessError` carrying an unsupported option token,
or the final supported map and general-argument list. -/
inductive OptResult
  | noOptionMap
  | unsupported (opt : Str)
  | ok (supportedMap : List (Str × OptVal)) (generalArgs : List Str)
deriving DecidableEq, Repr

/-- The index-manipulating loop of `explodeAndSet`: a token starting with `-`
must be a key of the supported map (otherwise the loop throws with that token);
the run of following tokens not starting with `-` becomes its argument list and
the loop resumes after that run; every other token is appended to the general
arguments.  The fuel bounds the recursion; every step consumes at least one
token, so fuel equal to the token count (as supplied by `explodeAndSet`) is
always sufficient. -/
def explodeGo : Nat → List (Str × OptVal) → List Str → List Str → OptResult
  | _, mp, gen, [] => .ok mp gen
  | 0, mp, gen, _ :: _ => .ok mp gen
  | fuel + 1, mp, gen, t :: ts =>
    if startsWithDash t then
      match lookupOpt mp t with
      | none => .unsupported t
      | some _ =>
        explodeGo fuel (setOpt mp t (.args (ts.takeWhile (fun u => !startsWithDash u))))
          gen (ts.dropWhile (fun u => !startsWithDash u))
    else explodeGo fuel mp (gen ++ [t]) ts

/-- `explodeAndSet`: tokenize the raw remainder and run the partition loop on
the initial supported map. -/
def explodeAndSet (mp : List (Str × OptVal)) (raw : Str) : OptResult :=
  explodeGo (tokenize raw).length mp [] (tokenize raw)

/-- Construction of `OptionParser(method, options)`: look the method up in the
master option table (a missing entry throws a plain `Error`, not a
`CommandProcessError`), then run `explodeAndSet`. -/
def optionParserRun (method : Str) (raw : Str) : OptResult :=
  match getMasterOptionMap method with
  | none => .noOptionMap
  | some mp => explodeAndSet mp raw

/-- Test of an anchored literal regex `/^pat/`: the subject starts with `pat`. -/
def begins : Str → Str → Bool
  | [], _ => true
  | _ :: _, [] => false
  | p :: ps, c :: cs => p == c && begins ps cs

/-- The message thrown by the `/^git$/` sandbox command, the value of the
JavaScript expression `_.escape("\ ... ")` (backslash-newline line
continuations keep the indentation of the continuation lines, and `<` and `>`
are HTML-escaped by `_.escape`). -/
def gitVersionMsg : String :=
  "            Git Version \n             PCOTTLE.1.0             Usage: \n               git &lt;command&gt; [&lt;args&gt;]           "

/-- The ordered pattern/result list `getSandboxCommands`: each action throws a
`CommandResult` with a fixed message (the `/^refresh$/` action additionally
fires the `refreshTree` event, the one side effect of the core, which has no
observable value here). -/
def sandboxCommands : List ((Str → Bool) × String) :=
  [(fun s => begins "ls".data s, "DontWorryAboutFilesInThisDemo.txt"),
   (fun s => begins "cd".data s, "Directory Changed to '/directories/dont/matter/in/this/demo'"),
   (fun s => s == "git".data, gitVersionMsg),
   (fun s => s == "refresh".data, "Refreshing tree...")]

/-- The `_.each` loop over the sandbox commands: the first matching pattern
throws its message, which aborts the whole loop, so the scan is first match
wins. -/
def runSandbox : List ((Str → Bool) × String) → Str → Option String
  | [], _ => none
  | (pat, msg) :: rest, s => if pat s then some msg else runSandbox rest s

/-- The shortcut table `getShortcutMap`, as (canonical prefix, alias) pairs in
source order; each alias stands for the regex `/^alias($|\s)/`. -/
def shortcutList : List (Str × Str) :=
  [("git commit".data, "gc".data),
   ("git add".data, "ga".data),
   ("git checkout".data, "gchk".data),
   ("git rebase".data, "gr".data),
   ("git branch".data, "gb".data)]

/-- Length of `results[0]` for the shortcut regex `/^pat($|\s)/` applied to
`s`: the alias alone when the string ends there, the alias plus the matched
whitespace character when one follows, `none` when the regex does not match. -/
def shortcutMatchLen (pat s : Str) : Option Nat :=
  if begins pat s then
    match s.drop pat.length with
    | [] => some pat.length
    | c :: _ => if isJsSpace c then some (pat.length + 1) else none
  else none

/-- The `_.each` loop over the shortcut map: every entry is tried against the
current (possibly already rewritten) string, and a matching entry rewrites it
to `method + ' ' + str.slice(results[0].length)`. -/
def applyShortcuts (s : Str) : Str :=
  shortcutList.foldl
    (fun cur entry =>
      match shortcutMatchLen entry.2 cur with
      | some n => entry.1 ++ ' ' :: cur.drop n
      | none => cur) s

/-- The method names of `getRegexMap`, in source order; each name stands for
the regex `/^name($|\s)/`. -/
def methodNames : List Str :=
  ["commit".data, "add".data, "checkout".data, "rebase".data,
   "reset".data, "branch".data, "revert".data, "merge".data]

/-- Test of a method regex `/^m($|\s)/` against the post-keyword remainder:
the remainder starts with the method name, followed by the end of the string
or a whitespace character. -/
def methodMatches (m full : Str) : Bool :=
  begins m full &&
    match full.drop m.length with
    | [] => true
    | c :: _ => isJsSpace c

/-- The `_.each` loop over the method regex map: a matching entry overwrites
the previously selected method and remainder (`fullCommand.slice(method.length
+ 1)`), so the last matching entry wins. -/
def resolveAux (full : Str) : List Str → Option (Str × Str) → Option (Str × Str)
  | [], acc => acc
  | m :: ms, acc =>
    resolveAux full ms
      (if methodMatches m full then some (m, full.drop (m.length + 1)) else acc)

/-- Method resolution over the full ordered method table, starting from the
unset (`null`) method of a fresh command. -/
def resolveMethod (full : Str) : Option (Str × Str) :=
  resolveAux full methodNames none

/-- The structured user-facing rejections of the classifier, one per
`CommandProcessError` throw site of the source. -/
inductive ParseFailure
  | unsupportedTopLevel
  | unsupportedMethod (attempted : Str)
  | unsupportedOption (method : Str) (opt : Str)
deriving DecidableEq, Repr

/-- The observable outcome of running a command line through the model:
`pseudo` models a thrown `CommandResult` (status finished), `failure` a thrown
`CommandProcessError` (status error), `internal` a plain `Error` that
`parseOrCatch` re-throws, and `success` a normal return with the final method,
supported map and general arguments. -/
inductive Outcome
  | pseudo (msg : String)
  | failure (f : ParseFailure)
  | internal (msg : String)
  | success (method : Str) (options : List (Str × OptVal)) (generalArgs : List Str)
deriving DecidableEq, Repr

/-- `gitParse(str)`: slice off `'git '` (four characters, whatever they are),
resolve the method, and run the option parser on the captured remainder. -/
def gitParse (s : Str) : Outcome :=
  match resolveMethod (s.drop 4) with
  | none => .failure (.unsupportedMethod (s.drop 4))
  | some (m, rest) =>
    match optionParserRun m rest with
    | .noOptionMap => .internal ("No option map for " ++ String.mk m)
    | .unsupported opt => .failure (.unsupportedOption m opt)
    | .ok mp gen => .success m mp gen

/-- `parse()`: the empty line throws `CommandResult({msg: ""})`; then the
sandbox scan may throw a `CommandResult`; then shortcuts rewrite the string;
then the first three characters must be `git`; finally `gitParse` runs on the
rewritten string. -/
def parseLine (s : Str) : Outcome :=
  if s.length = 0 then .pseudo ""
  else
    match runSandbox sandboxCommands s with
    | some msg => .pseudo msg
    | none =>
      if (applyShortcuts s).take 3 = "git".data then gitParse (applyShortcuts s)
      else .failure .unsupportedTopLevel

/-- `initialize()` on a fresh command holding `rawStr`: `validateAtInit` throws
a plain `Error('Give me a string!')` whenever `rawStr` is falsy — which for a
string argument means exactly the empty string — before `parseOrCatch` ever
runs; otherwise the outcome is that of `parse()`. -/
def initCommand (rawStr : String) : Outcome :=
  if rawStr.data = [] then .internal "Give me a string!"
  else parseLine rawStr.data

/-- The two output attributes of the command that the option parser fills in
(`generalArgs` and `supportedMap`), with their defaults from the model's
`defaults` block. -/
structure CmdAttrs where
  generalArgs : List Str
  supportedMap : List (Str × OptVal)
deriving DecidableEq, Repr

/-- The defaults `generalArgs: []` and `supportedMap: {}`. -/
def defaultAttrs : CmdAttrs := ⟨[], []⟩

/-- The final values of the `generalArgs` and `supportedMap` attributes after
`initialize()`: `gitParse` copies them out of the option parser only after its
construction returned (lines 174-175 of the source), so any thrown outcome
leaves both at their defaults. -/
def commandAttrs (rawStr : String) : CmdAttrs :=
  match initCommand rawStr with
  | .success _ mp gen => ⟨gen, mp⟩
  | _ => defaultAttrs

theorem dropWhile_append_cons {α : Type} (p : α → Bool) (l₁ l₂ : List α) (a : α)
    (ha : p a = false) :
    List.dropWhile p (l₁ ++ a :: l₂) = List.dropWhile p l₁ ++ a :: l₂ := by
  induction l₁ with
  | nil => simp [List.dropWhile, ha]
  | cons x xs ih =>
    by_cases hx : p x
    · simpa [List.dropWhile, hx] using ih
    · simp [List.dropWhile, hx]

theorem length_dropWhile_le' {α : Type} (p : α → Bool) (l : List α) :
    (List.dropWhile p l).length ≤ l.length := by
  induction l with
  | nil => simp [List.dropWhile]
  | cons x xs ih =>
    by_cases hx : p x
    · simp only [List.dropWhile, hx]
      exact Nat.le_succ_of_le ih
    · simp [List.dropWhile, hx]

theorem mem_of_mem_dropWhile' {α : Type} (p : α → Bool) (l : List α) (a : α)
    (h : a ∈ List.dropWhile p l) : a ∈ l := by
  induction l with
  | nil => simp [List.dropWhile] at h
  | cons x xs ih =>
    by_cases hx : p x
    · simp only [List.dropWhile, hx] at h
      exact List.mem_cons_of_mem x (ih h)
    · simpa [List.dropWhile, hx] using h

theorem lookupOpt_eq_none (mp : List (Str × OptVal)) (key : Str) :
    lookupOpt mp key = none ↔ key ∉ mp.map Prod.fst := by
  induction mp with
  | nil => simp [lookupOpt]
  | cons kv rest ih =>
    obtain ⟨k, v⟩ := kv
    by_cases hk : k = key
    · subst hk
      simp [lookupOpt]
    · simp [lookupOpt, hk, ih, Ne.symm hk]

theorem setOpt_keys (mp : List (Str × OptVal)) (key : Str) (v : OptVal)
    (h : key ∈ mp.map Prod.fst) :
    (setOpt mp key v).map Prod.fst = mp.map Prod.fst := by
  induction mp with
  | nil => simp at h
  | cons kv rest ih =>
    obtain ⟨k, w⟩ := kv
    by_cases hk : k = key
    · simp [setOpt, hk]
    · have h' : key = k ∨ key ∈ rest.map Prod.fst := by simpa using h
      have hmem : key ∈ rest.map Prod.fst := by
        rcases h' with h' | h'
        · exact absurd h'.symm hk
        · exact h'
      simp [setOpt, hk, ih hmem]

theorem explodeGo_ok_keys (fuel : Nat) :
    ∀ (mp : List (Str × OptVal)) (gen ts : List Str) (mp' : List (Str × OptVal))
      (gen' : List Str), explodeGo fuel mp gen ts = .ok mp' gen' →
      mp'.map Prod.fst = mp.map Prod.fst := by
  induction fuel with
  | zero =>
    intro mp gen ts mp' gen' h
    cases ts with
    | nil =>
      simp only [explodeGo, OptResult.ok.injEq] at h
      rw [h.1]
    | cons t ts =>
      simp only [explodeGo, OptResult.ok.injEq] at h
      rw [h.1]
  | succ fuel ih =>
    intro mp gen ts mp' gen' h
    cases ts with
    | nil =>
      simp only [explodeGo, OptResult.ok.injEq] at h
      rw [h.1]
    | cons t ts =>
      simp only [explodeGo] at h
      by_cases hd : startsWithDash t
      · simp only [hd, if_true] at h
        cases hlk : lookupOpt mp t with
        | none => simp [hlk] at h
        | some v =>
          simp only [hlk] at h
          have hkey : t ∈ mp.map Prod.fst := by
            by_contra hc
            rw [(lookupOpt_eq_none mp t).mpr hc] at hlk
            exact Option.noConfusion hlk
          have := ih _ _ _ _ _ h
          rw [this, setOpt_keys mp t _ hkey]
      · simp only [hd, if_false] at h
        exact ih _ _ _ _ _ h

theorem explodeGo_ok_gen (fuel : Nat) :
    ∀ (mp : List (Str × OptVal)) (gen ts : List Str) (mp' : List (Str × OptVal))
      (gen' : List Str), explodeGo fuel mp gen ts = .ok mp' gen' →
      ∀ a ∈ gen', a ∈ gen ∨ startsWithDash a = false := by
  induction fuel with
  | zero =>
    intro mp gen ts mp' gen' h a ha
    cases ts with
    | nil =>
      simp only [explodeGo, OptResult.ok.injEq] at h
      exact Or.inl (h.2 ▸ ha)
    | cons t ts =>
      simp only [explodeGo, OptResult.ok.injEq] at h
      exact Or.inl (h.2 ▸ ha)
  | succ fuel ih =>
    intro mp gen ts mp' gen' h a ha
    cases ts with
    | nil =>
      simp only [explodeGo, OptResult.ok.injEq] at h
      exact Or.inl (h.2 ▸ ha)
    | cons t ts =>
      simp only [explodeGo] at h
      by_cases hd : startsWithDash t
      · simp only [hd, if_true] at h
        cases hlk : lookupOpt mp t with
        | none => simp [hlk] at h
        | some v =>
          simp only [hlk] at h
          exact ih _ _ _ _ _ h a ha
      · simp only [hd, if_false] at h
        rcases ih _ _ _ _ _ h a ha with hmem | hdash
        · rcases List.mem_append.mp hmem with hg | ht
          · exact Or.inl hg
          · right
            rw [List.mem_singleton.mp ht]
            exact Bool.not_eq_true _ ▸ hd
        · exact Or.inr hdash

theorem explodeGo_ne_noOptionMap (fuel : Nat) :
    ∀ (mp : List (Str × OptVal)) (gen ts : List Str),
      explodeGo fuel mp gen ts ≠ .noOptionMap := by
  induction fuel with
  | zero =>
    intro mp gen ts
    cases ts <;> simp [explodeGo]
  | succ fuel ih =>
    intro mp gen ts
    cases ts with
    | nil => simp [explodeGo]
    | cons t ts =>
      simp only [explodeGo]
      by_cases hd : startsWithDash t
      · simp only [hd, if_true]
        cases hlk : lookupOpt mp t with
        | none => simp
        | some v => exact ih _ _ _
      · simp only [hd, if_false]
        exact ih _ _ _

theorem explodeGo_unsupported (fuel : Nat) :
    ∀ (mp : List (Str × OptVal)) (gen pre suf : List Str) (bad : Str),
      (pre ++ bad :: suf).length ≤ fuel →
      (∀ t ∈ pre, startsWithDash t = true → t ∈ mp.map Prod.fst) →
      startsWithDash bad = true → bad ∉ mp.map Prod.fst →
      explodeGo fuel mp gen (pre ++ bad :: suf) = .unsupported bad := by
  induction fuel with
  | zero =>
    intro mp gen pre suf bad hlen _ _ _
    exfalso
    simp only [List.length_append, List.length_cons] at hlen
    omega
  | succ fuel ih =>
    intro mp gen pre suf bad hlen hpre hbad hbadmem
    cases pre with
    | nil =>
      rw [List.nil_append]
      simp only [explodeGo, hbad, if_true, (lookupOpt_eq_none mp bad).mpr hbadmem]
    | cons t pre' =>
      rw [List.cons_append]
      have hlen' : (pre' ++ bad :: suf).length ≤ fuel := by
        simp only [List.cons_append, List.length_cons] at hlen
        omega
      by_cases hd : startsWithDash t
      · have htmem := hpre t (List.mem_cons_self t pre') hd
        cases hlkv : lookupOpt mp t with
        | none =>
          rw [lookupOpt_eq_none] at hlkv
          exact absurd htmem hlkv
        | some v =>
          simp only [explodeGo, hd, if_true, hlkv]
          rw [dropWhile_append_cons (fun u => !startsWithDash u) pre' suf bad
            (by simp [hbad])]
          apply ih
          · have h1 := length_dropWhile_le' (fun u => !startsWithDash u) pre'
            simp only [List.length_append, List.length_cons] at hlen' ⊢
            omega
          · intro t' ht' hd'
            rw [setOpt_keys mp t _ htmem]
            exact hpre t'
              (List.mem_cons_of_mem _ (mem_of_mem_dropWhile' _ _ _ ht')) hd'
          · exact hbad
          · rw [setOpt_keys mp t _ htmem]
            exact hbadmem
      · simp only [explodeGo, hd, if_false]
        exact ih mp (gen ++ [t]) pre' suf bad hlen'
          (fun t' ht' => hpre t' (List.mem_cons_of_mem _ ht')) hbad hbadmem

theorem resolveAux_sound (full : Str) :
    ∀ (l : List Str) (acc : Option (Str × Str)) (p : Str × Str),
      resolveAux full l acc = some p →
      (∃ m ∈ l, methodMatches m full = true ∧ p = (m, full.drop (m.length + 1))) ∨
        acc = some p := by
  intro l
  induction l with
  | nil =>
    intro acc p h
    exact Or.inr h
  | cons m ms ih =>
    intro acc p h
    simp only [resolveAux] at h
    rcases ih _ p h with ⟨m', hm', hmatch, hp⟩ | hacc
    · exact Or.inl ⟨m', List.mem_cons_of_mem _ hm', hmatch, hp⟩
    · by_cases hm : methodMatches m full
      · rw [if_pos hm] at hacc
        exact Or.inl ⟨m, List.mem_cons_self m ms, hm, (Option.some.injEq _ _ ▸ hacc).symm⟩
      · rw [if_neg hm] at hacc
        exact Or.inr hacc

theorem resolveAux_isSome_mono (full : Str) :
    ∀ (l : List Str) (acc : Option (Str × Str)),
      acc.isSome → (resolveAux full l acc).isSome := by
  intro l
  induction l with
  | nil =>
    intro acc h
    exact h
  | cons m ms ih =>
    intro acc h
    simp only [resolveAux]
    by_cases hm : methodMatches m full
    · exact ih _ (by simp [hm])
    · exact ih _ (by simpa [hm] using h)

theorem resolveAux_isSome_of_mem (full : Str) :
    ∀ (l : List Str) (acc : Option (Str × Str)) (m : Str),
      m ∈ l → methodMatches m full = true → (resolveAux full l acc).isSome := by
  intro l
  induction l with
  | nil =>
    intro acc m hm
    simp at hm
  | cons m0 ms ih =>
    intro acc m hm hmatch
    simp only [resolveAux]
    rcases List.mem_cons.mp hm with h0 | hms
    · subst h0
      exact resolveAux_isSome_mono full ms _ (by simp [hmatch])
    · exact ih _ m hms hmatch

theorem gitParse_success_inv (s : Str) (m : Str) (mp : List (Str × OptVal)) (gen : List Str)
    (h : gitParse s = .success m mp gen) :
    ∃ rest, resolveMethod (s.drop 4) = some (m, rest) ∧ optionParserRun m rest = .ok mp gen := by
  unfold gitParse at h
  split at h
  · exact absurd h (by simp)
  next m' rest hrm =>
    split at h
    · exact absurd h (by simp)
    · exact absurd h (by simp)
    next mp' gen' hop =>
      simp only [Outcome.success.injEq] at h
      obtain ⟨h1, h2, h3⟩ := h
      subst h1
      subst h2
      subst h3
      exact ⟨rest, hrm, hop⟩

theorem gitParse_internal_inv (s : Str) (msg : String)
    (h : gitParse s = .internal msg) :
    ∃ m rest, resolveMethod (s.drop 4) = some (m, rest) ∧ getMasterOptionMap m = none := by
  unfold gitParse at h
  split at h
  · exact absurd h (by simp)
  next m' rest hrm =>
    split at h
    next hop =>
      refine ⟨m', rest, hrm, ?_⟩
      unfold optionParserRun at hop
      cases hmm : getMasterOptionMap m' with
      | none => rfl
      | some mp0 =>
        rw [hmm] at hop
        unfold explodeAndSet at hop
        exact absurd hop (explodeGo_ne_noOptionMap _ _ _ _)
    · exact absurd h (by simp)
    · exact absurd h (by simp)

theorem gitParse_ne_topLevel (s : Str) :
    gitParse s ≠ .failure .unsupportedTopLevel := by
  unfold gitParse
  split
  · simp
  · split <;> simp

theorem optionParserRun_ok_inv (m r : Str) (mp : List (Str × OptVal)) (gen : List Str)
    (h : optionParserRun m r = .ok mp gen) :
    ∃ mp0, getMasterOptionMap m = some mp0 ∧ mp.map Prod.fst = mp0.map Prod.fst ∧
      (∀ a ∈ gen, startsWithDash a = false) := by
  unfold optionParserRun at h
  cases hmm : getMasterOptionMap m with
  | none =>
    rw [hmm] at h
    simp at h
  | some mp0 =>
    rw [hmm] at h
    unfold explodeAndSet at h
    refine ⟨mp0, rfl, explodeGo_ok_keys _ _ _ _ _ _ h, fun a ha => ?_⟩
    rcases explodeGo_ok_gen _ _ _ _ _ _ h a ha with hmem | hdash
    · simp at hmem
    · exact hdash

theorem parseLine_success_inv (s : Str) (m : Str) (mp : List (Str × OptVal)) (gen : List Str)
    (h : parseLine s = .success m mp gen) :
    ∃ rest, resolveMethod ((applyShortcuts s).drop 4) = some (m, rest) ∧
      optionParserRun m rest = .ok mp gen := by
  unfold parseLine at h
  by_cases h0 : s.length = 0
  · rw [if_pos h0] at h
    simp at h
  · rw [if_neg h0] at h
    cases hsb : runSandbox sandboxCommands s with
    | some msg =>
      rw [hsb] at h
      simp at h
    | none =>
      rw [hsb] at h
      by_cases hg : (applyShortcuts s).take 3 = "git".data
      · rw [if_pos hg] at h
        exact gitParse_success_inv _ _ _ _ h
      · rw [if_neg hg] at h
        simp at h

theorem parseLine_internal_inv (s : Str) (msg : String)
    (h : parseLine s = .internal msg) :
    gitParse (applyShortcuts s) = .internal msg := by
  unfold parseLine at h
  by_cases h0 : s.length = 0
  · rw [if_pos h0] at h
    simp at h
  · rw [if_neg h0] at h
    cases hsb : runSandbox sandboxCommands s with
    | some m =>
      rw [hsb] at h
      simp at h
    | none =>
      rw [hsb] at h
      by_cases hg : (applyShortcuts s).take 3 = "git".data
      · rw [if_pos hg] at h
        exact h
      · rw [if_neg hg] at h
        simp at h

theorem masterMap_covers_methods :
    ∀ m ∈ methodNames, (getMasterOptionMap m).isSome = true := by
  decide

theorem parseLine_git_head (x : Char) (xs : Str) :
    parseLine ('g' :: 'i' :: 't' :: x :: xs) = gitParse ('g' :: 'i' :: 't' :: x :: xs) := by
  have h0 : ('g' :: 'i' :: 't' :: x :: xs : Str).length ≠ 0 := by simp
  have hsb : runSandbox sandboxCommands ('g' :: 'i' :: 't' :: x :: xs) = none := rfl
  have hsc : applyShortcuts ('g' :: 'i' :: 't' :: x :: xs) = 'g' :: 'i' :: 't' :: x :: xs := rfl
  unfold parseLine
  rw [if_neg h0, hsb, hsc,
    if_pos (show (('g' :: 'i' :: 't' :: x :: xs : Str).take 3 = "git".data) from rfl)]

/-- C1: the claim asserts that the full pipeline maps the empty raw line to
`PseudoResult{message: ""}`.  The code disagrees with itself here:
`validateAtInit` throws a plain `Error('Give me a string!')` on the falsy
empty string before `parseOrCatch` ever runs, although the empty-line branch
inside `parse()` — shown in the second conjunct, and unreachable through
`initialize()` — would produce exactly the claimed pseudo-result. -/
theorem c1_empty_line_bug :
    initCommand "" = .internal "Give me a string!" ∧ parseLine "".data = .pseudo "" := by
  decide

/-- C2 as stated is false on the code: for method `commit` and the empty
remainder, whose token list is empty so that no flag token is encountered,
the returned mapping still carries all three supported flags as keys (with
the sentinel `false` value). -/
theorem c2_counterexample :
    optionParserRun "commit".data "".data =
      .ok [("--amend".data, .passthrough), ("-a".data, .passthrough),
        ("-am".data, .passthrough)] [] ∧
    tokenize "".data = [] := by
  decide

/-- C2 amended: for every supported method and every remainder string, a
successful run of the option parser returns a mapping whose keys are exactly
the supported flags of that method, in table order — a supported flag appears
as a key whether or not it occurs in the remainder. -/
theorem c2_options_keys (m r : Str) (mp0 mp : List (Str × OptVal)) (gen : List Str)
    (hm : getMasterOptionMap m = some mp0)
    (h : optionParserRun m r = .ok mp gen) :
    mp.map Prod.fst = mp0.map Prod.fst := by
  obtain ⟨mp1, hm1, hkeys, -⟩ := optionParserRun_ok_inv m r mp gen h
  rw [hm] at hm1
  obtain rfl : mp0 = mp1 := Option.some.injEq _ _ ▸ hm1
  exact hkeys

/-- Witness for the amended C2 at method `commit` and remainder `--amend`. -/
theorem c2_options_keys_witness :
    ([("--amend".data, OptVal.args []), ("-a".data, OptVal.passthrough),
        ("-am".data, OptVal.passthrough)].map Prod.fst) =
      ([("--amend".data, OptVal.passthrough), ("-a".data, OptVal.passthrough),
        ("-am".data, OptVal.passthrough)].map Prod.fst) :=
  c2_options_keys "commit".data "--amend".data _ _ [] (by decide) (by decide)

/-- C3: when the token list of the remainder contains a token starting with
`-` that is not a supported flag of the method (all earlier dash tokens being
supported), the option parser fails with exactly that token; the failure does
not depend on the tokens after the offending one; and any run of the pipeline
that ends in an unsupported-option failure leaves the command's `generalArgs`
and `supportedMap` outputs at their defaults. -/
theorem c3_unsupported_option (m r : Str) (mp0 : List (Str × OptVal))
    (pre suf : List Str) (bad : Str)
    (hm : getMasterOptionMap m = some mp0)
    (ht : tokenize r = pre ++ bad :: suf)
    (hpre : ∀ t ∈ pre, startsWithDash t = true → t ∈ mp0.map Prod.fst)
    (hbad : startsWithDash bad = true)
    (hunsup : bad ∉ mp0.map Prod.fst) :
    optionParserRun m r = .unsupported bad ∧
    (∀ suf2 fuel, (pre ++ bad :: suf2).length ≤ fuel →
      explodeGo fuel mp0 [] (pre ++ bad :: suf2) = .unsupported bad) ∧
    (∀ raw mm opt, initCommand raw = .failure (.unsupportedOption mm opt) →
      commandAttrs raw = defaultAttrs) := by
  refine ⟨?_, ?_, ?_⟩
  · simp only [optionParserRun, hm, explodeAndSet, ht]
    exact explodeGo_unsupported _ mp0 [] pre suf bad (le_refl _) hpre hbad hunsup
  · intro suf2 fuel hfuel
    exact explodeGo_unsupported fuel mp0 [] pre suf2 bad hfuel hpre hbad hunsup
  · intro raw mm opt hfail
    simp [commandAttrs, hfail]

/-- Witness for C3: method `commit` and remainder `--amend x y -g`, whose
tokens are the supported flag `--amend`, the plain tokens `x` and `y`, and
the unsupported flag `-g`. -/
theorem c3_unsupported_option_witness :
    optionParserRun "commit".data "--amend x y -g".data = .unsupported "-g".data :=
  (c3_unsupported_option "commit".data "--amend x y -g".data
    [("--amend".data, .passthrough), ("-a".data, .passthrough), ("-am".data, .passthrough)]
    ["--amend".data, "x".data, "y".data] [] "-g".data
    (by decide) (by decide) (by decide) (by decide) (by decide)).1

/-- C4: tokenization splits on whitespace, keeps a quoted span as one token
with the quote characters stripped, and yields zero tokens for the empty
remainder. -/
theorem c4_tokenize :
    tokenize "a \"b c\" d".data = ["a".data, "b c".data, "d".data] ∧
    tokenize "".data = [] := by
  decide

/-- C5 as stated is false on the code: the method regexes accept any
whitespace character after the method name, not only a space, so the
remainder built from `commit` followed by a tab selects the method `commit`
although it neither equals `commit` nor starts with `commit` and a space. -/
theorem c5_counterexample :
    resolveMethod "commit\t-a".data = some ("commit".data, "-a".data) ∧
    begins "commit ".data "commit\t-a".data = false ∧
    "commit\t-a".data ≠ "commit".data := by
  decide

/-- C5 amended: method resolution selects a method exactly when the
post-keyword remainder starts with that method's name followed by the end of
the string or a whitespace character (the regex class \s, hence also a tab),
capturing the remainder after the name and one separator; a selected method
always comes from the fixed table, and when no table entry matches, the
result is `UnsupportedMethod` carrying the attempted text, so `git fetch`
yields attempted text `fetch`, and no partial-word match occurs: `git
addition` is rejected rather than resolved to `add`. -/
theorem c5_method_resolution :
    (∀ full m rest, resolveMethod full = some (m, rest) →
      m ∈ methodNames ∧ methodMatches m full = true ∧ rest = full.drop (m.length + 1)) ∧
    (∀ full m, m ∈ methodNames → methodMatches m full = true →
      (resolveMethod full).isSome = true) ∧
    parseLine "git fetch".data = .failure (.unsupportedMethod "fetch".data) ∧
    parseLine "git addition".data = .failure (.unsupportedMethod "addition".data) := by
  refine ⟨?_, ?_, by decide, by decide⟩
  · intro full m rest h
    rcases resolveAux_sound full methodNames none (m, rest) h with
      ⟨m', hm', hmatch, hp⟩ | habs
    · rw [Prod.mk.injEq] at hp
      obtain ⟨h1, h2⟩ := hp
      subst h1
      exact ⟨hm', hmatch, h2⟩
    · exact absurd habs (by simp)
  · intro full m hm hmatch
    exact resolveAux_isSome_of_mem full methodNames none m hm hmatch

/-- Witness for the amended C5 at the remainder `commit -a`. -/
theorem c5_method_resolution_witness :
    "commit".data ∈ methodNames ∧
    methodMatches "commit".data "commit -a".data = true ∧
    "-a".data = "commit -a".data.drop ("commit".data.length + 1) :=
  c5_method_resolution.1 "commit -a".data "commit".data "-a".data (by decide)

/-- C6: the shortcut `gc` expands to `git commit` while preserving the
trailing options, so both spellings classify to the same parsed command. -/
theorem c6_shortcut_expansion :
    parseLine "gc --amend".data = parseLine "git commit --amend".data ∧
    parseLine "git commit --amend".data =
      .success "commit".data
        [("--amend".data, .args []), ("-a".data, .passthrough), ("-am".data, .passthrough)]
        [] := by
  decide

/-- C7: the pseudo-command scan runs before the top-level keyword check and
its first matching pattern decides the outcome: `ls -la` hits the
directory-listing pseudo-command rather than the git keyword check, `svn
status` hits no pseudo-command and fails the keyword check, and in general
any non-empty line on which the sandbox scan fires classifies to that
pseudo-result. -/
theorem c7_pseudo_scan :
    parseLine "ls -la".data = .pseudo "DontWorryAboutFilesInThisDemo.txt" ∧
    parseLine "svn status".data = .failure .unsupportedTopLevel ∧
    ∀ s msg, s.length ≠ 0 → runSandbox sandboxCommands s = some msg →
      parseLine s = .pseudo msg := by
  refine ⟨by decide, by decide, ?_⟩
  intro s msg h0 hsb
  unfold parseLine
  rw [if_neg h0, hsb]

/-- Witness for C7 at the input `refresh`. -/
theorem c7_pseudo_scan_witness :
    parseLine "refresh".data = .pseudo "Refreshing tree..." :=
  c7_pseudo_scan.2.2 "refresh".data "Refreshing tree..." (by decide) (by decide)

/-- C8: every successful parse yields an options mapping whose keys all
belong to the fixed supported-option set of the resolved method, and a
general-argument list none of whose elements starts with `-`. -/
theorem c8_success_invariants (s : Str) (m : Str) (mp : List (Str × OptVal)) (gen : List Str)
    (h : parseLine s = .success m mp gen) :
    (∃ mp0, getMasterOptionMap m = some mp0 ∧ mp.map Prod.fst = mp0.map Prod.fst) ∧
    ∀ a ∈ gen, startsWithDash a = false := by
  obtain ⟨rest, hrm, hok⟩ := parseLine_success_inv s m mp gen h
  obtain ⟨mp0, hm0, hkeys, hgen⟩ := optionParserRun_ok_inv m rest mp gen hok
  exact ⟨⟨mp0, hm0, hkeys⟩, hgen⟩

/-- Witness for C8 at the input `git commit --amend`. -/
theorem c8_success_invariants_witness :
    ((∃ mp0, getMasterOptionMap "commit".data = some mp0 ∧
        ([("--amend".data, OptVal.args []), ("-a".data, OptVal.passthrough),
          ("-am".data, OptVal.passthrough)].map Prod.fst) = mp0.map Prod.fst) ∧
      ∀ a ∈ ([] : List Str), startsWithDash a = false) :=
  c8_success_invariants "git commit --amend".data "commit".data
    [("--amend".data, OptVal.args []), ("-a".data, OptVal.passthrough),
      ("-am".data, OptVal.passthrough)] [] (by decide)

/-- C9: every method name in the classifier's method table has an entry in
the per-method supported-option table, so the classifier pipeline can never
reach the internal-consistency branch: no input classifies to a plain
internal error. -/
theorem c9_option_map_covers :
    (∀ m ∈ methodNames, (getMasterOptionMap m).isSome = true) ∧
    ∀ s msg, parseLine s ≠ .internal msg := by
  refine ⟨masterMap_covers_methods, ?_⟩
  intro s msg h
  have hg := parseLine_internal_inv s msg h
  obtain ⟨m, rest, hrm, hnone⟩ := gitParse_internal_inv _ msg hg
  rcases resolveAux_sound _ methodNames none (m, rest) hrm with
    ⟨m', hm', -, hp⟩ | habs
  · rw [Prod.mk.injEq] at hp
    obtain ⟨h1, -⟩ := hp
    subst h1
    have hcov := masterMap_covers_methods m hm'
    rw [hnone] at hcov
    simp at hcov
  · exact absurd habs (by simp)

/-- Witness for C9 at the method `commit`. -/
theorem c9_option_map_covers_witness :
    (getMasterOptionMap "commit".data).isSome = true :=
  c9_option_map_covers.1 "commit".data (by decide)

/-- C10: an input whose first three characters are `git` but which is not
exactly `git` passes the top-level check whatever its fourth character is:
classification proceeds to `gitParse`, which resolves the method on the input
with its first four characters removed, and can no longer produce
`UnsupportedTopLevel`; in particular `gitcommit` yields `UnsupportedMethod`
with attempted text `ommit`. -/
theorem c10_git_prefix_check :
    (∀ s : Str, s.take 3 = "git".data → s ≠ "git".data → s.get? 3 ≠ some ' ' →
      parseLine s = gitParse s ∧ parseLine s ≠ .failure .unsupportedTopLevel) ∧
    parseLine "gitcommit".data = .failure (.unsupportedMethod "ommit".data) := by
  refine ⟨?_, by decide⟩
  intro s htake hne _
  obtain ⟨x, xs, rfl⟩ : ∃ x xs, s = 'g' :: 'i' :: 't' :: x :: xs := by
    have htake' : s.take 3 = ['g', 'i', 't'] := htake
    have hne' : s ≠ ['g', 'i', 't'] := hne
    cases s with
    | nil => simp at htake'
    | cons a s1 =>
      cases s1 with
      | nil => simp [List.take] at htake'
      | cons b s2 =>
        cases s2 with
        | nil => simp [List.take] at htake'
        | cons c s3 =>
          simp only [List.take, List.cons.injEq] at htake'
          obtain ⟨rfl, rfl, rfl, -⟩ := htake'
          cases s3 with
          | nil => exact absurd rfl hne'
          | cons x xs => exact ⟨x, xs, rfl⟩
  exact ⟨parseLine_git_head x xs,
    fun hc => gitParse_ne_topLevel _ (parseLine_git_head x xs ▸ hc)⟩

/-- Witness for C10 at the input `gitcommit`. -/
theorem c10_git_prefix_check_witness :
    parseLine "gitcommit".data = gitParse "gitcommit".data ∧
    parseLine "gitcommit".data ≠ .failure .unsupportedTopLevel :=
  c10_git_prefix_check.1 "gitcommit".data (by decide) (by decide) (by decide)

end CommandModel
